import Mathlib

/-!
Verification of the `ucblock` Conan package recipe (`conanfile.py`).

The recipe is a Conan 1.x `ConanFile` subclass.  Its behaviour is driven by a
handful of library primitives of the Conan framework and of Python itself,
which we embed faithfully:

* `tools.replace_in_file(path, search, replace)` (strict mode, the default):
  loads the file, raises `ConanException` when `content.find(search) == -1`,
  otherwise writes back `content.replace(search, replace)`.  Python's
  `str.replace` substitutes every non-overlapping occurrence, scanning left to
  right; `str.find` reports substring containment.
* `self.copy(pattern, dst)`: copies the files of the source tree whose name
  matches `pattern` into `dst`; a pattern that matches no file copies nothing
  and raises no error.
* assignment into the `CMake` helper's `definitions` dict, a Python `dict`
  update (replace the value of an existing key in place, else append).

Files are modelled as lists of characters, file trees as lists of path names.
-/

namespace UCBlock

/-! ## Strings: Python `str.replace`, `str.find` and `str.count` -/

/-- Fuel-indexed worker for `replaceAll`.  The fuel only serves to make the
recursion structural (the interesting call site drops `pat.length ≥ 1`
characters, which is not a structural descent); `replaceAll` instantiates the
fuel with the length of the string, which is always sufficient. -/
def replaceAllF (pat repl : List Char) : Nat → List Char → List Char
  | 0, s => s
  | _ + 1, [] => []
  | fuel + 1, c :: rest =>
    if 0 < pat.length ∧ pat.isPrefixOf (c :: rest) then
      repl ++ replaceAllF pat repl fuel ((c :: rest).drop pat.length)
    else
      c :: replaceAllF pat repl fuel rest

/-- Python `s.replace(pat, repl)` for a non-empty `pat`: substitute every
non-overlapping occurrence of `pat`, scanning left to right. -/
def replaceAll (pat repl s : List Char) : List Char :=
  replaceAllF pat repl s.length s

/-- Fuel-indexed worker for `countOccur`; see `replaceAllF`. -/
def countOccurF (pat : List Char) : Nat → List Char → Nat
  | 0, _ => 0
  | _ + 1, [] => 0
  | fuel + 1, c :: rest =>
    if 0 < pat.length ∧ pat.isPrefixOf (c :: rest) then
      countOccurF pat fuel ((c :: rest).drop pat.length) + 1
    else
      countOccurF pat fuel rest

/-- Python `s.count(pat)` for a non-empty `pat`: the number of non-overlapping
occurrences of `pat` in `s`, counted left to right. -/
def countOccur (pat s : List Char) : Nat :=
  countOccurF pat s.length s

/-- Python `s.find(pat) != -1`: `pat` occurs somewhere in `s`. -/
def containsSub (pat : List Char) : List Char → Bool
  | [] => pat.isEmpty
  | c :: rest => pat.isPrefixOf (c :: rest) || containsSub pat rest

/-! ## The Conan library primitives used by the recipe -/

/-- `conans.tools.replace_in_file` in strict mode (the default used by the
recipe): `none` models the raised `ConanException` when the search string is
absent; otherwise every occurrence is substituted and the file written back. -/
def replace_in_file (search repl content : List Char) : Option (List Char) :=
  if containsSub search content then some (replaceAll search repl content) else none

/-- `ConanFile.copy(pattern, dst)` restricted to a wildcard-free pattern, as
used by the recipe: the files of the tree whose name equals the pattern are
copied under `dst`; no match means nothing is copied, and no error. -/
def conan_copy (pat dst : String) (files : List String) : List String :=
  (files.filter (fun f => f = pat)).map (fun f => dst ++ "/" ++ f)

/-- A Python dict assignment `d[k] = v` on an association list: replace the
value of an existing key in place, else append the binding. -/
def setDef (k : String) (v : Bool) : List (String × Bool) → List (String × Bool)
  | [] => [(k, v)]
  | (k₀, v₀) :: rest => if k₀ = k then (k, v) :: rest else (k₀, v₀) :: setDef k v rest

/-- A Python dict lookup `d[k]` on an association list. -/
def lookupDef (k : String) : List (String × Bool) → Option Bool
  | [] => none
  | (k₀, v₀) :: rest => if k₀ = k then some v₀ else lookupDef k rest

/-! ## The recipe's static data (`UcblockConan` class attributes) -/

/-- `UcblockConan.exports_sources`: the entries copied into the build
context. -/
def exports_sources : List String :=
  ["CMakeLists.txt", "src/*", "include/*", "cmake/*", "tools/*"]

/-- The anchor string searched by `UcblockConan.source`. -/
def anchor : List Char := "LANGUAGES C CXX)".toList

/-- The two lines `UcblockConan.source` splices in after the anchor. -/
def insertedLines : List Char :=
  "\ninclude($\x7bCMAKE_BINARY_DIR\x7d/conanbuildinfo.cmake)\nconan_basic_setup()".toList

/-- The full replacement text passed to `tools.replace_in_file`: the anchor
itself followed by the two inserted lines. -/
def replacement : List Char := anchor ++ insertedLines

/-! ## The recipe's methods -/

/-- `UcblockConan.source`: patch the build description `CMakeLists.txt`
(given here as `content`) with `tools.replace_in_file`.  `none` models the
raised `ConanException`. -/
def source (content : List Char) : Option (List Char) :=
  replace_in_file anchor replacement content

/-- The data of the conan `CMake` helper object the recipe manipulates: its
`definitions` dict, passed to the native configuration phase by
`cmake.configure()`. -/
structure CMakeHandle where
  definitions : List (String × Bool)
deriving DecidableEq

/-- `UcblockConan._configure_cmake`: build the `CMake` helper — whose initial
`definitions` dict `helperDefs` is derived by the Conan library from the
settings and the option values, opaquely to the recipe — then assign
`definitions["BUILD_TESTING"] = False` and configure. -/
def configure_cmake (helperDefs : List (String × Bool)) : CMakeHandle :=
  { definitions := setDef "BUILD_TESTING" false helperDefs }

/-- The outcome of `UcblockConan.package`: the files of the staged package. -/
structure PackageOutput where
  files : List String
deriving DecidableEq

/-- `UcblockConan.package`: copy the files named `LICENSE` of the exported
tree `srcFiles` under `licenses/`, then run the native install target.
`installResult` is the outcome of the external `cmake.install()` call:
`none` models a raised install failure (which aborts the step), `some fs`
the files it stages.  The step succeeds exactly when install does; the
license copy has no failure mode of its own. -/
def package (srcFiles : List String) (installResult : Option (List String)) :
    Option PackageOutput :=
  let licensed := conan_copy "LICENSE" "licenses" srcFiles
  match installResult with
  | none => none
  | some installed => some ⟨licensed ++ installed⟩

/-- The consumer-facing metadata published by `UcblockConan.package_info`. -/
structure CppInfo where
  includedirs : List String
  libs : List String
deriving DecidableEq

/-- `UcblockConan.package_info`: publish the include directories and library
names.  The recipe's options are passed in to record that the body never
consults them. -/
def package_info (shared fPIC : Bool) : CppInfo :=
  { includedirs := ["include", "include/SMS++"], libs := ["UCBlock"] }

/-! ## Concrete build descriptions used as test inputs -/

/-- A minimal `CMakeLists.txt` in which the anchor occurs exactly once. -/
def cmakeOnce : List Char := "project(ucblock LANGUAGES C CXX)\n".toList

/-- A `CMakeLists.txt` in which the anchor occurs twice. -/
def cmakeTwice : List Char :=
  "project(a LANGUAGES C CXX)\nproject(b LANGUAGES C CXX)\n".toList

/-- A `CMakeLists.txt` in which the anchor does not occur. -/
def cmakeNoAnchor : List Char := "project(ucblock LANGUAGES CXX)\n".toList

/-! ## Lemmas about the string primitives -/

/-- A string without occurrences of the pattern is left unchanged. -/
theorem replaceAllF_of_countF_zero (pat repl : List Char) :
    ∀ fuel s, countOccurF pat fuel s = 0 → replaceAllF pat repl fuel s = s := by
  intro fuel
  induction fuel with
  | zero => intro s _; rfl
  | succ f ih =>
    intro s hc
    cases s with
    | nil => rfl
    | cons c rest =>
      by_cases h : 0 < pat.length ∧ pat.isPrefixOf (c :: rest)
      · rw [countOccurF, if_pos h] at hc
        omega
      · rw [countOccurF, if_neg h] at hc
        rw [replaceAllF, if_neg h, ih rest hc]

/-- A string of the shape `a ++ pat ++ b` has at least one occurrence of the
non-empty pattern `pat`. -/
theorem countF_pos_append (pat : List Char) (hp : 0 < pat.length) :
    ∀ a fuel b, (a ++ pat ++ b).length ≤ fuel →
      0 < countOccurF pat fuel (a ++ pat ++ b) := by
  intro a
  induction a with
  | nil =>
    intro fuel b hf
    cases pat with
    | nil => simp at hp
    | cons p pt =>
      cases fuel with
      | zero => simp [List.length_append] at hf
      | succ f =>
        have hpre : (p :: pt).isPrefixOf ((p :: pt) ++ b) = true :=
          List.isPrefixOf_iff_prefix.mpr (List.prefix_append _ _)
        simp only [List.nil_append, List.cons_append] at hpre ⊢
        rw [countOccurF, if_pos ⟨hp, hpre⟩]
        omega
  | cons x a' ih =>
    intro fuel b hf
    cases fuel with
    | zero => simp [List.length_append] at hf
    | succ f =>
      simp only [List.cons_append] at hf ⊢
      by_cases h : 0 < pat.length ∧ pat.isPrefixOf (x :: (a' ++ pat ++ b))
      · rw [countOccurF, if_pos h]
        omega
      · rw [countOccurF, if_neg h]
        apply ih f b
        simp only [List.length_cons, List.length_append] at hf ⊢
        omega

/-- `containsSub` decides substring containment. -/
theorem containsSub_iff (pat : List Char) :
    ∀ s, containsSub pat s = true ↔ ∃ a b, s = a ++ pat ++ b := by
  intro s
  induction s with
  | nil =>
    simp only [containsSub, List.isEmpty_iff]
    constructor
    · rintro rfl
      exact ⟨[], [], rfl⟩
    · rintro ⟨a, b, h⟩
      rcases List.append_eq_nil.mp h.symm with ⟨h1, h2⟩
      rcases List.append_eq_nil.mp h1 with ⟨_, h3⟩
      exact h3
  | cons c rest ih =>
    simp only [containsSub, Bool.or_eq_true]
    constructor
    · rintro (h | h)
      · rcases List.prefix_iff_eq_append.mp (List.isPrefixOf_iff_prefix.mp h) with h'
        exact ⟨[], (c :: rest).drop pat.length,
          by simp only [List.nil_append]; exact h'.symm⟩
      · rcases ih.mp h with ⟨a, b, hab⟩
        exact ⟨c :: a, b, by simp [hab]⟩
    · rintro ⟨a, b, hab⟩
      cases a with
      | nil =>
        left
        simp only [List.nil_append] at hab
        exact List.isPrefixOf_iff_prefix.mpr ⟨b, hab.symm⟩
      | cons x a' =>
        right
        simp only [List.cons_append, List.cons.injEq] at hab
        exact ih.mpr ⟨a', b, hab.2⟩

/-- A string with an occurrence of the pattern decomposes around it. -/
theorem exists_decomp_of_countF_pos (pat : List Char) :
    ∀ fuel s, 0 < countOccurF pat fuel s → ∃ a b, s = a ++ pat ++ b := by
  intro fuel
  induction fuel with
  | zero => intro s h; simp [countOccurF] at h
  | succ f ih =>
    intro s h
    cases s with
    | nil => simp [countOccurF] at h
    | cons c rest =>
      by_cases hc : 0 < pat.length ∧ pat.isPrefixOf (c :: rest)
      · refine ⟨[], (c :: rest).drop pat.length, ?_⟩
        have h' := List.prefix_iff_eq_append.mp (List.isPrefixOf_iff_prefix.mp hc.2)
        simp only [List.nil_append]
        exact h'.symm
      · rw [countOccurF, if_neg hc] at h
        obtain ⟨a, b, hab⟩ := ih rest h
        exact ⟨c :: a, b, by simp [hab]⟩

/-- When the pattern occurs exactly once, the substitution rewrites that one
occurrence and leaves the surrounding text unchanged. -/
theorem replaceAllF_single (pat repl : List Char) :
    ∀ fuel s, s.length ≤ fuel → countOccurF pat fuel s = 1 →
      ∃ a b, s = a ++ pat ++ b ∧ replaceAllF pat repl fuel s = a ++ repl ++ b := by
  intro fuel
  induction fuel with
  | zero => intro s hs hc; simp [countOccurF] at hc
  | succ f ih =>
    intro s hs hc
    cases s with
    | nil => simp [countOccurF] at hc
    | cons c rest =>
      by_cases h : 0 < pat.length ∧ pat.isPrefixOf (c :: rest)
      · rw [countOccurF, if_pos h] at hc
        have hc0 : countOccurF pat f ((c :: rest).drop pat.length) = 0 := by omega
        have hid := replaceAllF_of_countF_zero pat repl f _ hc0
        have hpre := List.prefix_iff_eq_append.mp (List.isPrefixOf_iff_prefix.mp h.2)
        refine ⟨[], (c :: rest).drop pat.length, ?_, ?_⟩
        · simp only [List.nil_append]
          exact hpre.symm
        · rw [replaceAllF, if_pos h, hid]
          simp
      · rw [countOccurF, if_neg h] at hc
        have hr : rest.length ≤ f := by
          simp only [List.length_cons] at hs
          omega
        obtain ⟨a, b, hab, hrw⟩ := ih rest hr hc
        refine ⟨c :: a, b, by simp [hab], ?_⟩
        rw [replaceAllF, if_neg h, hrw]
        simp

/-- When the pattern occurs at least once, the substituted string contains the
replacement text. -/
theorem replaceAllF_fire (pat repl : List Char) :
    ∀ fuel s, 0 < countOccurF pat fuel s →
      ∃ a b, replaceAllF pat repl fuel s = a ++ repl ++ b := by
  intro fuel
  induction fuel with
  | zero => intro s h; simp [countOccurF] at h
  | succ f ih =>
    intro s h
    cases s with
    | nil => simp [countOccurF] at h
    | cons c rest =>
      by_cases hc : 0 < pat.length ∧ pat.isPrefixOf (c :: rest)
      · refine ⟨[], replaceAllF pat repl f ((c :: rest).drop pat.length), ?_⟩
        rw [replaceAllF, if_pos hc]
        simp
      · rw [countOccurF, if_neg hc] at h
        obtain ⟨a, b, hab⟩ := ih rest h
        refine ⟨c :: a, b, ?_⟩
        rw [replaceAllF, if_neg hc, hab]
        simp

/-- When the pattern occurs at least twice, the substituted string contains
two copies of the replacement text. -/
theorem replaceAllF_fire2 (pat repl : List Char) :
    ∀ fuel s, 2 ≤ countOccurF pat fuel s →
      ∃ a b c, replaceAllF pat repl fuel s = a ++ repl ++ b ++ repl ++ c := by
  intro fuel
  induction fuel with
  | zero => intro s h; simp [countOccurF] at h
  | succ f ih =>
    intro s h
    cases s with
    | nil => simp [countOccurF] at h
    | cons c rest =>
      by_cases hc : 0 < pat.length ∧ pat.isPrefixOf (c :: rest)
      · rw [countOccurF, if_pos hc] at h
        have h1 : 0 < countOccurF pat f ((c :: rest).drop pat.length) := by omega
        obtain ⟨a, b, hab⟩ := replaceAllF_fire pat repl f _ h1
        refine ⟨[], a, b, ?_⟩
        rw [replaceAllF, if_pos hc, hab]
        simp
      · rw [countOccurF, if_neg hc] at h
        obtain ⟨a, b, d, habd⟩ := ih rest h
        refine ⟨c :: a, b, d, ?_⟩
        rw [replaceAllF, if_neg hc, habd]
        simp

/-- Substitution by a replacement at least as long as the pattern never
shortens the string. -/
theorem length_le_replaceAllF (pat repl : List Char) (hr : pat.length ≤ repl.length) :
    ∀ fuel s, s.length ≤ fuel → s.length ≤ (replaceAllF pat repl fuel s).length := by
  intro fuel
  induction fuel with
  | zero => intro s _; exact Nat.le_refl _
  | succ f ih =>
    intro s hs
    cases s with
    | nil => simp [replaceAllF]
    | cons c rest =>
      by_cases h : 0 < pat.length ∧ pat.isPrefixOf (c :: rest)
      · rw [replaceAllF, if_pos h]
        have hplen : pat.length ≤ (c :: rest).length :=
          (List.isPrefixOf_iff_prefix.mp h.2).length_le
        have hdl : ((c :: rest).drop pat.length).length ≤ f := by
          simp only [List.length_drop, List.length_cons] at hs ⊢
          omega
        have := ih ((c :: rest).drop pat.length) hdl
        simp only [List.length_append, List.length_drop, List.length_cons] at this ⊢
        omega
      · rw [replaceAllF, if_neg h]
        have hrl : rest.length ≤ f := by
          simp only [List.length_cons] at hs
          omega
        have := ih rest hrl
        simp only [List.length_cons]
        omega

/-- Substitution by a strictly longer replacement strictly lengthens a string
in which the pattern occurs. -/
theorem length_lt_replaceAllF (pat repl : List Char) (hr : pat.length < repl.length) :
    ∀ fuel s, s.length ≤ fuel → 0 < countOccurF pat fuel s →
      s.length < (replaceAllF pat repl fuel s).length := by
  intro fuel
  induction fuel with
  | zero => intro s _ h; simp [countOccurF] at h
  | succ f ih =>
    intro s hs h
    cases s with
    | nil => simp [countOccurF] at h
    | cons c rest =>
      by_cases hc : 0 < pat.length ∧ pat.isPrefixOf (c :: rest)
      · rw [replaceAllF, if_pos hc]
        have hplen : pat.length ≤ (c :: rest).length :=
          (List.isPrefixOf_iff_prefix.mp hc.2).length_le
        have hdl : ((c :: rest).drop pat.length).length ≤ f := by
          simp only [List.length_drop, List.length_cons] at hs ⊢
          have := hc.1
          omega
        have := length_le_replaceAllF pat repl (Nat.le_of_lt hr) f _ hdl
        simp only [List.length_append, List.length_drop, List.length_cons] at this ⊢
        omega
      · rw [countOccurF, if_neg hc] at h
        rw [replaceAllF, if_neg hc]
        have hrl : rest.length ≤ f := by
          simp only [List.length_cons] at hs
          omega
        have := ih rest hrl h
        simp only [List.length_cons]
        omega

/-- Wrapper: a string of the shape `a ++ pat ++ b` has a positive count. -/
theorem count_pos_append (pat : List Char) (hp : 0 < pat.length) (a b : List Char) :
    0 < countOccur pat (a ++ pat ++ b) :=
  countF_pos_append pat hp a _ b (Nat.le_refl _)

/-- A positive count entails substring containment. -/
theorem containsSub_of_count_pos {pat s : List Char} (h : 0 < countOccur pat s) :
    containsSub pat s = true := by
  obtain ⟨a, b, hab⟩ := exists_decomp_of_countF_pos pat s.length s h
  exact (containsSub_iff pat s).mpr ⟨a, b, hab⟩

/-- Substring containment of a non-empty pattern entails a positive count. -/
theorem count_pos_of_containsSub {pat s : List Char} (hp : 0 < pat.length)
    (h : containsSub pat s = true) : 0 < countOccur pat s := by
  obtain ⟨a, b, hab⟩ := (containsSub_iff pat s).mp h
  subst hab
  exact count_pos_append pat hp a b

/-- When the anchor occurs, `source` succeeds and returns the substituted
build description. -/
theorem source_eq_of_count_pos {s : List Char} (h : 0 < countOccur anchor s) :
    source s = some (replaceAll anchor replacement s) := by
  have hcs := containsSub_of_count_pos h
  simp [source, replace_in_file, hcs]

/-- One application of the patcher to a description containing the anchor:
it succeeds, the result still contains the anchor, and is strictly longer. -/
theorem source_step {s : List Char} (h : 0 < countOccur anchor s) :
    ∃ t, source s = some t ∧ 0 < countOccur anchor t ∧
      containsSub anchor t = true ∧ s.length < t.length := by
  obtain ⟨a, b, hab⟩ := replaceAllF_fire anchor replacement s.length s h
  have hdec : replaceAll anchor replacement s = a ++ anchor ++ (insertedLines ++ b) := by
    have h1 : replaceAll anchor replacement s = a ++ replacement ++ b := hab
    rw [h1, replacement]
    simp [List.append_assoc]
  refine ⟨replaceAll anchor replacement s, source_eq_of_count_pos h, ?_, ?_, ?_⟩
  · rw [hdec]
    exact count_pos_append anchor (by decide) a (insertedLines ++ b)
  · exact (containsSub_iff anchor _).mpr ⟨a, insertedLines ++ b, hdec⟩
  · exact length_lt_replaceAllF anchor replacement (by decide) s.length s (Nat.le_refl _) h

/-- A Python dict assignment makes the assigned value the one subsequently
looked up, whatever the dict held before. -/
theorem lookupDef_setDef (k : String) (v : Bool) :
    ∀ d, lookupDef k (setDef k v d) = some v := by
  intro d
  induction d with
  | nil => simp [setDef, lookupDef]
  | cons p rest ih =>
    obtain ⟨k₀, v₀⟩ := p
    by_cases h : k₀ = k
    · simp [setDef, lookupDef, h]
    · simp [setDef, lookupDef, h, ih]

/-! ## The claims -/

/-- C1: `package_info` always sets exactly
`includedirs = ["include", "include/SMS++"]` and `libs = ["UCBlock"]`, as
constants, independent of the option values and of any prior step. -/
theorem claim1_package_info_constant :
    ∀ shared fPIC : Bool,
      package_info shared fPIC =
        { includedirs := ["include", "include/SMS++"], libs := ["UCBlock"] } := by
  intro _ _
  rfl

/-- C2: for every combination of `shared` and `fPIC`, and whatever initial
definitions the Conan `CMake` helper derives from them, `_configure_cmake`
passes `BUILD_TESTING = false` to the configuration phase: the assignment is
unconditional and overrides any prior binding. -/
theorem claim2_build_testing_always_false
    (helperDefs : Bool → Bool → List (String × Bool)) (shared fPIC : Bool) :
    lookupDef "BUILD_TESTING" (configure_cmake (helperDefs shared fPIC)).definitions =
      some false := by
  simp only [configure_cmake]
  exact lookupDef_setDef _ _ _

/-- C5: when the build description contains no occurrence of the anchor,
`source` raises (strict `replace_in_file`); it does not succeed silently. -/
theorem claim5_absent_anchor_fails (s : List Char) (h : countOccur anchor s = 0) :
    source s = none := by
  have hfalse : containsSub anchor s = false := by
    cases hcs : containsSub anchor s
    · rfl
    · exfalso
      have := @count_pos_of_containsSub anchor s (by decide) hcs
      omega
  simp [source, replace_in_file, hfalse]

/-- Witness for C5 at a concrete anchor-free build description. -/
theorem claim5_witness :
    countOccur anchor cmakeNoAnchor = 0 ∧ source cmakeNoAnchor = none :=
  ⟨by decide, claim5_absent_anchor_fails cmakeNoAnchor (by decide)⟩

/-- C6: when the anchor occurs exactly once, `source` succeeds and the result
is the input with exactly the two lines
`include(.../conanbuildinfo.cmake)` and `conan_basic_setup()` inserted
immediately after the anchor; the rest of the file is unchanged. -/
theorem claim6_single_anchor_insertion (s : List Char) (h : countOccur anchor s = 1) :
    ∃ a b, s = a ++ anchor ++ b ∧
      source s = some (a ++ anchor ++ insertedLines ++ b) := by
  obtain ⟨a, b, hab, hrw⟩ :=
    replaceAllF_single anchor replacement s.length s (Nat.le_refl _) h
  refine ⟨a, b, hab, ?_⟩
  rw [source_eq_of_count_pos (by omega)]
  have hdec : replaceAll anchor replacement s = a ++ anchor ++ insertedLines ++ b := by
    have h1 : replaceAll anchor replacement s = a ++ replacement ++ b := hrw
    rw [h1, replacement]
    simp [List.append_assoc]
  rw [hdec]

/-- Witness for C6 at a concrete single-anchor build description. -/
theorem claim6_witness :
    countOccur anchor cmakeOnce = 1 ∧
    ∃ a b, cmakeOnce = a ++ anchor ++ b ∧
      source cmakeOnce = some (a ++ anchor ++ insertedLines ++ b) :=
  ⟨by decide, claim6_single_anchor_insertion cmakeOnce (by decide)⟩

/-- C10: after `source` runs on a description containing the anchor, the
result still contains `LANGUAGES C CXX)` verbatim — the replacement text
begins with the anchor, so patching never consumes it. -/
theorem claim10_anchor_survives (s : List Char) (h : 0 < countOccur anchor s) :
    ∃ t, source s = some t ∧ 0 < countOccur anchor t ∧
      containsSub anchor t = true := by
  obtain ⟨t, hst, hct, hcs, _⟩ := source_step h
  exact ⟨t, hst, hct, hcs⟩

/-- Witness for C10 at a concrete single-anchor build description. -/
theorem claim10_witness :
    0 < countOccur anchor cmakeOnce ∧
    ∃ t, source cmakeOnce = some t ∧ 0 < countOccur anchor t ∧
      containsSub anchor t = true :=
  ⟨by decide, claim10_anchor_survives cmakeOnce (by decide)⟩

set_option maxRecDepth 100000 in
/-- C3 is false on the code: applying `source` a second time neither
no-ops nor fails — at a concrete single-anchor description both applications
succeed, the second changes the file again, and the inserted include pair
goes from one copy to two. -/
theorem claim3_second_patch_duplicates_counterexample :
    (source cmakeOnce).isSome = true ∧
    (source ((source cmakeOnce).getD [])).isSome = true ∧
    countOccur insertedLines ((source cmakeOnce).getD []) = 1 ∧
    countOccur insertedLines ((source ((source cmakeOnce).getD [])).getD []) = 2 ∧
    ((source ((source cmakeOnce).getD [])).getD []) ≠ (source cmakeOnce).getD [] := by
  decide

/-- C3 amended: applying `source` a second time to a description that already
contains the inserted include succeeds and strictly grows the file — it is
neither a no-op nor a failure, and a second copy of the inserted lines
appears. -/
theorem claim3_second_patch_grows_file (s : List Char)
    (h : 0 < countOccur anchor s) :
    ∃ t u, source s = some t ∧ source t = some u ∧ t.length < u.length := by
  obtain ⟨t, hst, hct, _, _⟩ := source_step h
  obtain ⟨u, htu, _, _, hlen⟩ := source_step hct
  exact ⟨t, u, hst, htu, hlen⟩

/-- Witness for the amended C3 at a concrete single-anchor description. -/
theorem claim3_witness :
    0 < countOccur anchor cmakeOnce ∧
    ∃ t u, source cmakeOnce = some t ∧ source t = some u ∧ t.length < u.length :=
  ⟨by decide, claim3_second_patch_grows_file cmakeOnce (by decide)⟩

set_option maxRecDepth 100000 in
/-- C4 is false on the code: at a concrete description in which the anchor
occurs twice, `source` succeeds (it does not fail) and applies the insertion
at both places. -/
theorem claim4_duplicate_anchor_counterexample :
    countOccur anchor cmakeTwice = 2 ∧
    (source cmakeTwice).isSome = true ∧
    countOccur insertedLines ((source cmakeTwice).getD []) = 2 := by
  decide

/-- C4 amended: when the anchor occurs more than once, `source` succeeds and
applies the substitution at every occurrence — in particular the replacement
text appears (at least) twice in the result. -/
theorem claim4_duplicate_anchor_patches_both (s : List Char)
    (h : 2 ≤ countOccur anchor s) :
    ∃ a b c, source s = some (a ++ replacement ++ b ++ replacement ++ c) := by
  obtain ⟨a, b, c, habc⟩ := replaceAllF_fire2 anchor replacement s.length s h
  refine ⟨a, b, c, ?_⟩
  rw [source_eq_of_count_pos (by omega)]
  exact congrArg some habc

/-- Witness for the amended C4 at a concrete two-anchor description. -/
theorem claim4_witness :
    2 ≤ countOccur anchor cmakeTwice ∧
    ∃ a b c, source cmakeTwice =
      some (a ++ replacement ++ b ++ replacement ++ c) :=
  ⟨by decide, claim4_duplicate_anchor_patches_both cmakeTwice (by decide)⟩

/-- C7 is false on the code: with no `LICENSE` in the exported tree and a
successful install, the Package Step succeeds even though nothing was placed
under `licenses/` — `self.copy` silently matches nothing. -/
theorem claim7_missing_license_counterexample :
    package ["CMakeLists.txt"] (some ["include/UCBlock.h"]) =
      some { files := ["include/UCBlock.h"] } ∧
    "licenses/LICENSE" ∉ (["include/UCBlock.h"] : List String) := by
  exact ⟨rfl, by decide⟩

/-- C7 amended: the Package Step fails whenever the install sub-action fails,
and when a `LICENSE` file is present it is placed at `licenses/LICENSE`; but
a missing license file does not fail the step — the license copy has no
failure mode of its own, so a package without `licenses/LICENSE` can be
reported as a valid output. -/
theorem claim7_package_failure_propagation (srcFiles installed : List String) :
    package srcFiles none = none ∧
    ("LICENSE" ∈ srcFiles →
      ∃ out, package srcFiles (some installed) = some out ∧
        "licenses/LICENSE" ∈ out.files) := by
  refine ⟨rfl, fun h => ?_⟩
  refine ⟨⟨conan_copy "LICENSE" "licenses" srcFiles ++ installed⟩, rfl, ?_⟩
  apply List.mem_append_left
  apply List.mem_map.mpr
  refine ⟨"LICENSE", List.mem_filter.mpr ⟨h, by decide⟩, by decide⟩

/-- Witness for the amended C7 at a concrete exported tree with a license. -/
theorem claim7_witness :
    package ["LICENSE"] none = none ∧
    ∃ out, package ["LICENSE"] (some ["include/UCBlock.h"]) = some out ∧
      "licenses/LICENSE" ∈ out.files :=
  ⟨(claim7_package_failure_propagation ["LICENSE"] ["include/UCBlock.h"]).1,
   (claim7_package_failure_propagation ["LICENSE"] ["include/UCBlock.h"]).2 (by decide)⟩

/-- C8 is false on the code: `LICENSE` is not among the entries of
`exports_sources`. -/
theorem claim8_license_not_exported_counterexample :
    ("LICENSE" : String) ∉ exports_sources := by
  decide

/-- C8 amended: the set of entries the recipe exports into its build context
is exactly `CMakeLists.txt`, `src/*`, `include/*`, `cmake/*`, `tools/*` — a
`LICENSE` file is not among them. -/
theorem claim8_exports_exact :
    ∀ e : String, e ∈ exports_sources ↔
      e = "CMakeLists.txt" ∨ e = "src/*" ∨ e = "include/*" ∨
      e = "cmake/*" ∨ e = "tools/*" := by
  intro e
  simp [exports_sources]

/-- C9: the published link metadata is option-independent — any two runs of
`package_info`, whatever their `shared` and `fPIC` values, publish the same
`libs = ["UCBlock"]` and the same `includedirs`. -/
theorem claim9_package_info_option_independent :
    ∀ s₁ f₁ s₂ f₂ : Bool,
      package_info s₁ f₁ = package_info s₂ f₂ ∧
      (package_info s₁ f₁).libs = ["UCBlock"] ∧
      (package_info s₁ f₁).includedirs = ["include", "include/SMS++"] := by
  intro _ _ _ _
  exact ⟨rfl, rfl, rfl⟩

end UCBlock
